import Mathlib

/-!
Verification of the solar-dashboard core logic (app/main.py, app/utils.py,
src/data_utils.py) against its natural-language specification.

The embedding models pandas DataFrames as association lists from column
names to columns, and a numeric cell as `Option ℚ` (`none` = NaN/missing).
A pandas scalar float that can be NaN is modelled by `PFloat`.
-/

namespace Solar

/-- A pandas scalar float result: NaN, positive infinity, or a finite value
(modelled as an exact rational). -/
inductive PFloat where
  | nan : PFloat
  | inf : PFloat
  | val : ℚ → PFloat
deriving DecidableEq

/-- One column of a DataFrame: a list of cells, `none` meaning NaN/missing. -/
abbrev Col := List (Option ℚ)

/-- A DataFrame: association list from column name to column, in column order. -/
abbrev Table := List (String × Col)

/-- The column names of a table (`df.columns`). -/
def colNames (t : Table) : List String := t.map Prod.fst

/-- Look up a column by name (first match, as in a DataFrame with unique columns). -/
def lookupCol : Table → String → Option Col
  | [], _ => none
  | p :: ps, c => if p.1 = c then some p.2 else lookupCol ps c

/-- Column of `t` named `c`, defaulting to the empty column (`df[c]` is used
in the sources only under a prior membership check, so the default is never
observed). -/
def colOfD (t : Table) (c : String) : Col := (lookupCol t c).getD []

/-- The non-missing values of a column (`series.dropna()`; pandas also
excludes NaN cells from `mean`/`median`/`std`/`count`/`min`/`max`). -/
def nonMiss (vs : Col) : List ℚ := vs.filterMap id

/-- Mean of a pandas Series: NaN on an empty (all-missing) series, else the
arithmetic mean of the non-missing values. -/
def pmean (vs : Col) : PFloat :=
  if (nonMiss vs).length = 0 then PFloat.nan
  else PFloat.val ((nonMiss vs).sum / ((nonMiss vs).length : ℚ))

/-- Median of a pandas Series: sort the non-missing values; NaN if there are
none, the middle element for odd length, the average of the two middle
elements for even length. -/
def pmedian (vs : Col) : PFloat :=
  if (nonMiss vs).length = 0 then PFloat.nan
  else if (nonMiss vs).length % 2 = 1 then
    PFloat.val ((List.insertionSort (fun a b : ℚ => a ≤ b) (nonMiss vs)).getD ((nonMiss vs).length / 2) 0)
  else
    PFloat.val (((List.insertionSort (fun a b : ℚ => a ≤ b) (nonMiss vs)).getD ((nonMiss vs).length / 2 - 1) 0
      + (List.insertionSort (fun a b : ℚ => a ≤ b) (nonMiss vs)).getD ((nonMiss vs).length / 2) 0) / 2)

/-- The square of the sample standard deviation of a pandas Series
(`series.std()`, default `ddof = 1`): NaN when fewer than 2 non-missing
values, else the sum of squared deviations from the mean divided by n − 1.
The square is tracked instead of the square root so that the development
stays in exact rational arithmetic; the square root is NaN, zero, or
positive exactly when its argument is, so nothing verified here depends on
taking the root. -/
def pstdSq (vs : Col) : PFloat :=
  if (nonMiss vs).length < 2 then PFloat.nan
  else PFloat.val
    (((nonMiss vs).map (fun x => (x - (nonMiss vs).sum / ((nonMiss vs).length : ℚ))^2)).sum
      / (((nonMiss vs).length : ℚ) - 1))

/-- Minimum of a pandas Series: NaN when all values are missing. -/
def pminPF (vs : Col) : PFloat :=
  match nonMiss vs with
  | [] => PFloat.nan
  | x :: xs => PFloat.val (xs.foldl (fun a b => if b < a then b else a) x)

/-- Maximum of a pandas Series: NaN when all values are missing. -/
def pmaxPF (vs : Col) : PFloat :=
  match nonMiss vs with
  | [] => PFloat.nan
  | x :: xs => PFloat.val (xs.foldl (fun a b => if a < b then b else a) x)

/-- Round to the nearest integer, ties to even — the rounding used by
`numpy`/pandas `round`. -/
def roundHalfEven (x : ℚ) : ℤ :=
  if x - (⌊x⌋ : ℚ) < 1/2 then ⌊x⌋
  else if (1/2 : ℚ) < x - (⌊x⌋ : ℚ) then ⌊x⌋ + 1
  else if ⌊x⌋ % 2 = 0 then ⌊x⌋ else ⌊x⌋ + 1

/-- Round a rational to 2 decimal places, half to even (`.round(2)` in
pandas applied to an exact value). -/
def round2 (q : ℚ) : ℚ := (roundHalfEven (q * 100) : ℚ) / 100

/-- `.round(2)` lifted to a pandas scalar: NaN and infinity round to themselves. -/
def round2PF : PFloat → PFloat
  | PFloat.val q => PFloat.val (round2 q)
  | x => x

/-- Lexicographic comparison of character lists by Unicode code point —
the order pandas uses when sorting string group keys. -/
def charsLe : List Char → List Char → Bool
  | [], _ => true
  | _ :: _, [] => false
  | a :: as, b :: bs =>
    if a.toNat < b.toNat then true
    else if b.toNat < a.toNat then false
    else charsLe as bs

/-- String comparison by Unicode code points (pandas sort order for keys). -/
def strLeb (a b : String) : Bool := charsLe a.data b.data

/-- Remove duplicates keeping the first occurrence of each element
(first-appearance order of group keys). -/
def dedupKeys : List String → List String
  | [] => []
  | x :: xs => x :: (dedupKeys xs).filter (fun y => y ≠ x)

/-- Values of the metric column for the rows of group `k`
(`df[df[key] == k][metric]`), in row order. -/
def groupVals (rows : List (String × Option ℚ)) (k : String) : Col :=
  rows.filterMap (fun r => if r.1 = k then some r.2 else none)

/-- The group keys produced by `df.groupby(key)` with the default
`sort=True`: the distinct keys in ascending sorted order. -/
def groupKeys (rows : List (String × Option ℚ)) : List String :=
  List.insertionSort (fun a b => strLeb a b = true) (dedupKeys (rows.map Prod.fst))

/-- `df.groupby(key)[metric]`: each group key paired with the metric values
of its rows, iterated in the groupby order. -/
def groupby (rows : List (String × Option ℚ)) : List (String × Col) :=
  (groupKeys rows).map (fun k => (k, groupVals rows k))

/-- The per-group aggregates of `stats_table`:
`groupby('country')[metric].agg(['mean', 'median', 'std', 'count'])`
(app/main.py line 203), with `std` tracked as its square (see `pstdSq`). -/
structure GStats where
  mean : PFloat
  median : PFloat
  stdSq : PFloat
  count : Nat
deriving DecidableEq

/-- Aggregates of one group's metric values. -/
def mkGStats (vs : Col) : GStats :=
  { mean := pmean vs, median := pmedian vs, stdSq := pstdSq vs,
    count := (nonMiss vs).length }

/-- `stats_table = filtered_data.groupby('country')[metric].agg(['mean',
'median', 'std', 'count'])` (app/main.py line 203), before the final
`.round(2)` display step. -/
def summarize (rows : List (String × Option ℚ)) : List (String × GStats) :=
  (groupby rows).map (fun g => (g.1, mkGStats g.2))

/-- The `mean` column of `country_stats = filtered_data.groupby('country')
[metric].agg(['mean', 'std', 'count']).round(2)` (app/main.py line 263):
per-group means, rounded to 2 decimals by the `.round(2)` call. -/
def countryStatsMeans (rows : List (String × Option ℚ)) : List (String × PFloat) :=
  (groupby rows).map (fun g => (g.1, round2PF (pmean g.2)))

/-- The finite entries of a keyed column of pandas scalars (`idxmax` and
`idxmin` skip NaN entries). -/
def pfEntries (l : List (String × PFloat)) : List (String × ℚ) :=
  l.filterMap (fun p => match p.2 with
    | PFloat.val q => some (p.1, q)
    | _ => none)

/-- Scan for the first entry attaining the maximum (a later entry replaces
the current best only when strictly greater — `Series.idxmax` returns the
first index of the maximum). -/
def pickMaxGo : (String × ℚ) → List (String × ℚ) → (String × ℚ)
  | best, [] => best
  | best, y :: ys => pickMaxGo (if best.2 < y.2 then y else best) ys

/-- `Series.idxmax`: index of the first maximal finite entry, `none` when
no finite entry exists. -/
def pickMax : List (String × ℚ) → Option String
  | [] => none
  | x :: xs => some (pickMaxGo x xs).1

/-- Scan for the first entry attaining the minimum. -/
def pickMinGo : (String × ℚ) → List (String × ℚ) → (String × ℚ)
  | best, [] => best
  | best, y :: ys => pickMinGo (if y.2 < best.2 then y else best) ys

/-- `Series.idxmin`: index of the first minimal finite entry, `none` when
no finite entry exists. -/
def pickMin : List (String × ℚ) → Option String
  | [] => none
  | x :: xs => some (pickMinGo x xs).1

/-- `idxmax` over a keyed column of pandas scalars. -/
def idxmaxPF (l : List (String × PFloat)) : Option String := pickMax (pfEntries l)

/-- `idxmin` over a keyed column of pandas scalars. -/
def idxminPF (l : List (String × PFloat)) : Option String := pickMin (pfEntries l)

/-- `best_country = country_stats['mean'].idxmax()` (app/main.py line 265):
computed from the ROUNDED stats table. -/
def bestCountry (rows : List (String × Option ℚ)) : Option String :=
  idxmaxPF (countryStatsMeans rows)

/-- `worst_country = country_stats['mean'].idxmin()` (app/main.py line 267):
computed from the ROUNDED stats table. -/
def worstCountry (rows : List (String × Option ℚ)) : Option String :=
  idxminPF (countryStatsMeans rows)

/-- Modelled from the spec: the best-dataset selection as the spec describes
it — the argmax over the UNROUNDED per-group means ("selections are computed
from the unrounded per-group means"). Written for comparison against
`bestCountry`, which is what the code computes. -/
def unroundedBest (rows : List (String × Option ℚ)) : Option String :=
  idxmaxPF ((groupby rows).map (fun g => (g.1, pmean g.2)))

/-- The dictionary returned by `calculate_statistics` (app/utils.py):
keys `mean`, `median`, `std`, `min`, `max`; `std` tracked as its square. -/
structure StatsDict where
  mean : PFloat
  median : PFloat
  stdSq : PFloat
  minV : PFloat
  maxV : PFloat
deriving DecidableEq

/-- `calculate_statistics(df, metric)` (app/utils.py lines 15-26): `None`
when the metric column is absent, else the summary-statistics dictionary of
that column. -/
def calculate_statistics (df : Table) (metric : String) : Option StatsDict :=
  if metric ∈ colNames df then
    some { mean := pmean (colOfD df metric), median := pmedian (colOfD df metric),
           stdSq := pstdSq (colOfD df metric), minV := pminPF (colOfD df metric),
           maxV := pmaxPF (colOfD df metric) }
  else none

/-- The observable result of `generate_insights` (app/utils.py lines 28-38):
either the string `No data available` (`noData`) or the formatted report,
which interpolates the mean, the std, the min and the max of the metric. -/
inductive InsightMsg where
  | noData : InsightMsg
  | report : PFloat → PFloat → PFloat → PFloat → InsightMsg
deriving DecidableEq

/-- `generate_insights(df, metric)` (app/utils.py lines 28-38). The Python
guard is `if not stats`: `calculate_statistics` returns either `None`
(falsy) or a 5-key dictionary (always truthy), so the guard fires exactly
when the result is `None`. -/
def generate_insights (df : Table) (metric : String) : InsightMsg :=
  match calculate_statistics df metric with
  | none => InsightMsg.noData
  | some s => InsightMsg.report s.mean s.stdSq s.minV s.maxV

/-- Population variance (`ddof = 0`) of a list of values — the variance
underlying `scipy.stats.zscore`'s default standard deviation. -/
def popVar (xs : List ℚ) : ℚ :=
  (xs.map (fun x => (x - xs.sum / (xs.length : ℚ))^2)).sum / (xs.length : ℚ)

/-- Whether the absolute z-score of `x` exceeds `t`, for mean `μ` and
population variance `v`. When `v = 0` the z-score is `0/0 = NaN` in float
arithmetic and `NaN > t` is false. When `v > 0`,
`|x − μ| / sqrt v > t` holds exactly when `t < 0` or `t² · v < (x − μ)²`,
which keeps the test inside rational arithmetic. -/
def zExceeds (x μ v t : ℚ) : Bool :=
  if v = 0 then false
  else decide (t < 0) || decide (t^2 * v < (x - μ)^2)

/-- `(np.abs(stats.zscore(df[col].dropna())) > threshold).sum()`
(src/data_utils.py lines 15-18): the number of non-missing values whose
absolute z-score (mean and population std of the non-missing values)
exceeds the threshold. -/
def zscoreOutlierCount (vs : Col) (t : ℚ) : Nat :=
  (nonMiss vs).countP (fun x =>
    zExceeds x ((nonMiss vs).sum / ((nonMiss vs).length : ℚ)) (popVar (nonMiss vs)) t)

/-- Python dict assignment `d[k] = v`: overwrite the existing entry for `k`
in place, else append a new entry (insertion order preserved). -/
def dictInsert : List (String × Nat) → String → Nat → List (String × Nat)
  | [], k, v => [(k, v)]
  | p :: ps, k, v => if p.1 = k then (k, v) :: ps else p :: dictInsert ps k v

/-- Python dict lookup `d.get(k)`. -/
def dictLookup : List (String × Nat) → String → Option Nat
  | [], _ => none
  | p :: ps, k => if p.1 = k then some p.2 else dictLookup ps k

/-- `detect_outliers_zscore(df, columns, threshold=3)` (src/data_utils.py
lines 12-19): for each requested column that is present in the table,
record its z-score outlier count; requested columns absent from the table
are skipped. -/
def detect_outliers_zscore (df : Table) (columns : List String) (t : ℚ) : List (String × Nat) :=
  columns.foldl
    (fun d col =>
      if col ∈ colNames df then dictInsert d col (zscoreOutlierCount (colOfD df col) t) else d)
    []

/-- `df[col].isna().sum()`: number of missing cells in a column. -/
def missingCount (vs : Col) : Nat := vs.countP (fun v => v.isNone)

/-- `len(df)`: the number of rows of the table (the common length of its
columns; 0 for a table with no columns). -/
def nRows (df : Table) : Nat :=
  match df with
  | [] => 0
  | c :: _ => c.2.length

/-- `(missing_count / len(df)) * 100` in float arithmetic: `0/0` is NaN,
`n/0` for `n > 0` is +infinity, and otherwise the exact percentage. -/
def fdivPct (count n : Nat) : PFloat :=
  if n = 0 then (if count = 0 then PFloat.nan else PFloat.inf)
  else PFloat.val ((count : ℚ) / (n : ℚ) * 100)

/-- `generate_missing_report(df)` (src/data_utils.py lines 21-27): per
column, the missing count and the missing percentage against the total row
count. -/
def generate_missing_report (df : Table) : List (String × Nat × PFloat) :=
  df.map (fun p => (p.1, missingCount p.2, fdivPct (missingCount p.2) (nRows df)))

/-- The `column_mapping` dictionary of `standardize_columns` (app/main.py
lines 111-131), in insertion order. -/
def columnMapping : List (String × String) :=
  [("T_ModA", "ModA"), ("TModA", "ModA"), ("Module_A_Temp", "ModA"),
   ("T_ModB", "ModB"), ("TModB", "ModB"), ("Module_B_Temp", "ModB"),
   ("T_Amb", "Tamb"), ("T_amb", "Tamb"), ("Ambient_Temp", "Tamb"),
   ("WS", "WS"), ("Wind_Speed", "WS"),
   ("WSgust", "WSgust"), ("Gust_Speed", "WSgust"),
   ("WD", "WD"), ("Wind_Direction", "WD"),
   ("GHI", "GHI"), ("Global_Irradiance", "GHI"),
   ("DNI", "DNI"), ("Direct_Irradiance", "DNI"),
   ("DHI", "DHI"), ("Diffuse_Irradiance", "DHI"),
   ("RH", "RH"), ("Relative_Humidity", "RH"),
   ("BP", "BP"), ("Barometric_Pressure", "BP")]

/-- One loop iteration of `standardize_columns`: if the source name is a
column and the canonical name is not, append the canonical name as a copy of
the source column (`df[new_col] = df[old_col]` appends at the end); columns
are never removed or renamed. -/
def stdStep (t : Table) (p : String × String) : Table :=
  if p.1 ∈ colNames t ∧ p.2 ∉ colNames t then t ++ [(p.2, colOfD t p.1)] else t

/-- `standardize_columns(df)` (app/main.py lines 109-137): fold the mapping
over the table in dictionary insertion order. -/
def standardize_columns (t : Table) : Table := columnMapping.foldl stdStep t

/-- Parsed CSV content (opaque payload of a loaded file). -/
abbrev Csv := List (List String)

/-- The storage backend: `os.path.exists` and `pd.read_csv`, the latter
failing with a raised error (`Except.error`) when the file is unreadable. -/
structure FileSystem where
  pathExists : String → Bool
  read : String → Except String Csv

/-- The observable state of a loaded DataFrame for the loader claims:
`df.attrs.get('source')` (never written by any code in the repository),
the `country` column value assigned by the loader, and the parsed payload. -/
structure LDf where
  attrsSource : Option String
  country : Option String
  payload : Csv
deriving DecidableEq

/-- `pd.read_csv(path)` result: a fresh DataFrame whose `attrs` dictionary
is empty and which has no `country` column yet. -/
def mkDf (c : Csv) : LDf := { attrsSource := none, country := none, payload := c }

/-- `df['country'] = country_name`. -/
def setCountry (d : LDf) (n : String) : LDf := { d with country := some n }

/-- The `processed_files` dictionary of `load_country_data`
(app/main.py lines 42-46); `.get` returns `None` for unknown names. -/
def processedFiles (n : String) : Option String :=
  if n = "Benin" then some "data/processed/benin_clean.csv"
  else if n = "Sierra Leone" then some "data/processed/sierra_leone_clean.csv"
  else if n = "Togo" then some "data/processed/togo_clean.csv"
  else none

/-- The `raw_files` dictionary of `load_country_data`
(app/main.py lines 49-53). -/
def rawFiles (n : String) : Option String :=
  if n = "Benin" then some "data/raw/benin-malanville.csv"
  else if n = "Sierra Leone" then some "data/raw/sierraleone-bumbuna.csv"
  else if n = "Togo" then some "data/raw/togo-dapaong_qc.csv"
  else none

/-- `pd.read_csv(path)` followed by `df['country'] = name; return df`:
propagates a raised read error, else yields the loaded frame. -/
def readAttempt (fs : FileSystem) (p name : String) : Except String (Option LDf) :=
  (fs.read p).map (fun c => some (setCountry (mkDf c) name))

/-- The raw-file fallback step of `load_country_data` (app/main.py lines
62-67): `if raw_file and os.path.exists(raw_file)` then read, else fall
through to the `return None` at line 70 (inside the `try`, hence `ok`). -/
def loadRawStep (fs : FileSystem) (name : String) : Except String (Option LDf) :=
  match rawFiles name with
  | some r => if r ≠ "" ∧ fs.pathExists r = true then readAttempt fs r name else Except.ok none
  | none => Except.ok none

/-- `load_country_data(country_name)` (app/main.py lines 38-76): try the
processed path when it is truthy and exists, else the raw path likewise,
else `None`; the surrounding `try/except Exception` converts ANY raised
error into `return None`. -/
def load_country_data (fs : FileSystem) (name : String) : Option LDf :=
  match (match processedFiles name with
    | some p =>
      if p ≠ "" ∧ fs.pathExists p = true then readAttempt fs p name else loadRawStep fs name
    | none => loadRawStep fs name) with
  | Except.ok v => v
  | Except.error _ => none

/-- `standardize_columns` only adds data columns to the frame; it never
touches `df.attrs` or the `country` column, so on the loader-visible state
`LDf` it is the identity. -/
def standardizeL (d : LDf) : LDf := d

/-- Prefix test on character lists (used for Python's substring `in`). -/
def isPref : List Char → List Char → Bool
  | [], _ => true
  | _ :: _, [] => false
  | a :: as, b :: bs => a == b && isPref as bs

/-- Substring containment on character lists. -/
def containsSub (needle : List Char) : List Char → Bool
  | [] => needle.isEmpty
  | b :: bs => isPref needle (b :: bs) || containsSub needle bs

/-- Python's `needle in hay` on strings. -/
def strContains (hay needle : String) : Bool := containsSub needle.data hay.data

/-- The provenance tracking of `load_all_data` (app/main.py lines 91-95):
`"processed" if "clean" in str(country_data.attrs.get('source', ''))
else "raw"`. -/
def provenanceTag (d : LDf) : String :=
  if strContains (d.attrsSource.getD "") "clean" then "processed" else "raw"

/-- The `data_sources` list accumulated by `load_all_data` (app/main.py
lines 78-95): one provenance tag per successfully loaded country, in the
fixed country order, after `standardize_columns`. -/
def dataSources (fs : FileSystem) : List String :=
  ["Benin", "Sierra Leone", "Togo"].filterMap
    (fun n => (load_country_data fs n).map (fun d => provenanceTag (standardizeL d)))

/-- A processed-file path is unavailable to the loader when the dictionary
has no entry, or the entry is falsy (empty string), or the file does not
exist. -/
def pathMissing (fs : FileSystem) (o : Option String) : Prop :=
  ∀ p, o = some p → p = "" ∨ fs.pathExists p = false

/-- Example parsed CSV payload. -/
def exCsv : Csv := [["Timestamp", "GHI"], ["2021-01-01", "500"]]

/-- Example storage backend: only Benin's processed file exists, and it
parses successfully. -/
def exFS : FileSystem :=
  { pathExists := fun p => p == "data/processed/benin_clean.csv",
    read := fun p =>
      if p = "data/processed/benin_clean.csv" then Except.ok exCsv else Except.error "missing" }

/-- Example input rows (country, metric value) whose per-group means differ
but round to the same 2-decimal value. -/
def c2Rows : List (String × Option ℚ) := [("A", some (1001/1000)), ("B", some (1004/1000))]

/-- Example input rows whose first-appearance country order differs from
sorted order. -/
def c3Rows : List (String × Option ℚ) := [("Togo", some 1), ("Benin", some 2)]

/-- Evaluation rule: a present cell contributes its value. -/
theorem nonMiss_cons_some (q : ℚ) (vs : Col) : nonMiss (some q :: vs) = q :: nonMiss vs := rfl

/-- Evaluation rule: a missing cell contributes nothing. -/
theorem nonMiss_cons_none (vs : Col) : nonMiss (none :: vs) = nonMiss vs := rfl

/-- Evaluation rule: the empty column has no values. -/
theorem nonMiss_nil : nonMiss [] = [] := rfl

/-- Claim C1: the spec requires the provenance tag recorded for a loaded
dataset to be `processed` when the processed file was used and `raw` when
the raw file was used, the two being observably distinct in the returned
metadata. The code derives the tag from `df.attrs.get('source', '')`, but
no code in the repository ever writes `df.attrs['source']`, so the test
`"clean" in str(...)` is evaluated on the empty string and the recorded tag
is `raw` even when the processed file exists and was parsed: on a backend
where Benin's processed file exists and parses, `data_sources` records
`raw`, not `processed`. -/
theorem c1_provenance_bug :
    exFS.pathExists "data/processed/benin_clean.csv" = true ∧
    dataSources exFS = ["raw"] ∧
    ("raw" : String) ≠ "processed" := by decide

/-- Loader results always carry an empty `attrs` dictionary, because
`pd.read_csv` returns a fresh frame and nothing in the repository writes
`attrs`. -/
theorem load_attrsSource_none (fs : FileSystem) (name : String) (d : LDf)
    (h : load_country_data fs name = some d) : d.attrsSource = none := by
  rw [load_country_data] at h
  have hraw : ∀ d₀ : LDf, loadRawStep fs name = Except.ok (some d₀) → d₀.attrsSource = none := by
    intro d₀ h₀
    rw [loadRawStep] at h₀
    cases hr : rawFiles name with
    | none => rw [hr] at h₀; cases h₀
    | some r =>
      rw [hr] at h₀
      simp only [] at h₀
      by_cases hc : r ≠ "" ∧ fs.pathExists r = true
      · rw [if_pos hc, readAttempt] at h₀
        cases hread : fs.read r with
        | ok c => rw [hread] at h₀; cases h₀; rfl
        | error e => rw [hread] at h₀; cases h₀
      · rw [if_neg hc] at h₀; cases h₀
  cases hp : processedFiles name with
  | none =>
    rw [hp] at h
    simp only [] at h
    cases hstep : loadRawStep fs name with
    | ok v =>
      rw [hstep] at h
      cases v with
      | none => cases h
      | some d₁ => cases h; exact hraw d hstep
    | error e => rw [hstep] at h; cases h
  | some p =>
    rw [hp] at h
    simp only [] at h
    by_cases hc : p ≠ "" ∧ fs.pathExists p = true
    · rw [if_pos hc, readAttempt] at h
      cases hread : fs.read p with
      | ok c => rw [hread] at h; cases h; rfl
      | error e => rw [hread] at h; cases h
    · rw [if_neg hc] at h
      cases hstep : loadRawStep fs name with
      | ok v =>
        rw [hstep] at h
        cases v with
        | none => cases h
        | some d₁ => cases h; exact hraw d hstep
      | error e => rw [hstep] at h; cases h

/-- Claim C4: the loader tries the processed path first; the raw path is
attempted only when the processed path is unavailable; with both
unavailable it returns the failure signal `None`; and a raised read error
is converted into `None` rather than propagating (the `match` on
`fs.read` in the conclusion sends `Except.error` to `none`). -/
theorem c4_fallback_order (fs : FileSystem) (name : String) :
    (∀ p, processedFiles name = some p → p ≠ "" → fs.pathExists p = true →
      load_country_data fs name =
        (match fs.read p with
          | Except.ok c => some (setCountry (mkDf c) name)
          | Except.error _ => none)) ∧
    (pathMissing fs (processedFiles name) →
      ∀ r, rawFiles name = some r → r ≠ "" → fs.pathExists r = true →
      load_country_data fs name =
        (match fs.read r with
          | Except.ok c => some (setCountry (mkDf c) name)
          | Except.error _ => none)) ∧
    (pathMissing fs (processedFiles name) → pathMissing fs (rawFiles name) →
      load_country_data fs name = none) := by
  have hnotc : ∀ (q : String), pathMissing fs (some q) → ¬(q ≠ "" ∧ fs.pathExists q = true) := by
    intro q hq hcon
    rcases hq q rfl with h | h
    · exact hcon.1 h
    · rw [hcon.2] at h; cases h
  have hrawmiss : pathMissing fs (rawFiles name) → loadRawStep fs name = Except.ok none := by
    intro hm
    rw [loadRawStep]
    cases hr : rawFiles name with
    | none => rfl
    | some r =>
      rw [hr] at hm
      simp only []
      rw [if_neg (hnotc r hm)]
  have hstepmiss : pathMissing fs (processedFiles name) →
      (match processedFiles name with
        | some p =>
          if p ≠ "" ∧ fs.pathExists p = true then readAttempt fs p name else loadRawStep fs name
        | none => loadRawStep fs name) = loadRawStep fs name := by
    intro hmiss
    cases hp : processedFiles name with
    | none => rfl
    | some p =>
      rw [hp] at hmiss
      simp only []
      rw [if_neg (hnotc p hmiss)]
  refine ⟨?_, ?_, ?_⟩
  · intro p hp hne hex
    rw [load_country_data, hp]
    simp only []
    rw [if_pos (And.intro hne hex), readAttempt]
    cases hread : fs.read p with
    | ok c => rfl
    | error e => rfl
  · intro hmiss r hr hrne hrex
    rw [load_country_data, hstepmiss hmiss, loadRawStep, hr]
    simp only []
    rw [if_pos (And.intro hrne hrex), readAttempt]
    cases hread : fs.read r with
    | ok c => rfl
    | error e => rfl
  · intro hmiss hrmiss
    rw [load_country_data, hstepmiss hmiss, hrawmiss hrmiss]

/-- Witness for C4: on the example backend, Benin's processed file exists
and the loader returns the frame parsed from it. -/
theorem c4_witness :
    load_country_data exFS "Benin" = some (setCountry (mkDf exCsv) "Benin") := by
  have h := (c4_fallback_order exFS "Benin").1 "data/processed/benin_clean.csv" rfl
    (by decide) (by decide)
  rw [h]
  rfl

/-- Case analysis rule for the character-list comparison. -/
theorem charsLe_cons_iff (x y : Char) (as bs : List Char) :
    charsLe (x :: as) (y :: bs) = true ↔
      (x.toNat < y.toNat ∨ (x.toNat = y.toNat ∧ charsLe as bs = true)) := by
  by_cases h1 : x.toNat < y.toNat
  · simp [charsLe, h1]
  · by_cases h2 : y.toNat < x.toNat
    · simp only [charsLe, if_neg h1, if_pos h2]
      constructor
      · intro h; cases h
      · rintro (h | ⟨h, _⟩) <;> omega
    · have heq : x.toNat = y.toNat :=
        Nat.le_antisymm (Nat.not_lt.mp h2) (Nat.not_lt.mp h1)
      simp [charsLe, h1, h2, heq]

/-- The character-list comparison is total. -/
theorem charsLe_total : ∀ (a b : List Char), charsLe a b = true ∨ charsLe b a = true
  | [], _ => Or.inl rfl
  | _ :: _, [] => Or.inr rfl
  | x :: as, y :: bs => by
    rcases Nat.lt_trichotomy x.toNat y.toNat with h | h | h
    · exact Or.inl ((charsLe_cons_iff x y as bs).mpr (Or.inl h))
    · rcases charsLe_total as bs with ih | ih
      · exact Or.inl ((charsLe_cons_iff x y as bs).mpr (Or.inr ⟨h, ih⟩))
      · exact Or.inr ((charsLe_cons_iff y x bs as).mpr (Or.inr ⟨h.symm, ih⟩))
    · exact Or.inr ((charsLe_cons_iff y x bs as).mpr (Or.inl h))

/-- The character-list comparison is transitive. -/
theorem charsLe_trans (a : List Char) :
    ∀ b c, charsLe a b = true → charsLe b c = true → charsLe a c = true := by
  induction a with
  | nil => intro b c h1 h2; rfl
  | cons x as ih =>
    intro b c h1 h2
    cases b with
    | nil => exact absurd h1 (by simp [charsLe])
    | cons y bs =>
      cases c with
      | nil => exact absurd h2 (by simp [charsLe])
      | cons z cs =>
        rcases (charsLe_cons_iff x y as bs).mp h1 with hxy | ⟨hxy, hab⟩
        · rcases (charsLe_cons_iff y z bs cs).mp h2 with hyz | ⟨hyz, hbc⟩
          · exact (charsLe_cons_iff x z as cs).mpr (Or.inl (by omega))
          · exact (charsLe_cons_iff x z as cs).mpr (Or.inl (by omega))
        · rcases (charsLe_cons_iff y z bs cs).mp h2 with hyz | ⟨hyz, hbc⟩
          · exact (charsLe_cons_iff x z as cs).mpr (Or.inl (by omega))
          · exact (charsLe_cons_iff x z as cs).mpr (Or.inr ⟨by omega, ih bs cs hab hbc⟩)

/-- Membership is preserved by first-occurrence deduplication. -/
theorem mem_dedupKeys {a : String} : ∀ l : List String, (a ∈ dedupKeys l ↔ a ∈ l) := by
  intro l
  induction l with
  | nil => simp [dedupKeys]
  | cons x xs ih =>
    simp only [dedupKeys, List.mem_cons, List.mem_filter, ih, decide_eq_true_eq]
    by_cases hax : a = x
    · simp [hax]
    · simp [hax]

/-- First-occurrence deduplication yields a duplicate-free list. -/
theorem nodup_dedupKeys : ∀ l : List String, (dedupKeys l).Nodup := by
  intro l
  induction l with
  | nil => simp [dedupKeys]
  | cons x xs ih =>
    rw [dedupKeys, List.nodup_cons]
    exact ⟨by simp [List.mem_filter], ih.filter _⟩

/-- The key column of the statistics table is the groupby key sequence. -/
theorem summarize_keys (rows : List (String × Option ℚ)) :
    (summarize rows).map Prod.fst = groupKeys rows := by
  rw [summarize, groupby, List.map_map, List.map_map]
  exact List.map_id _

/-- Counterexample to claim C3: the claim says the iteration order of the
groups equals the first-appearance order of the dataset names in the input
table, but on rows arriving in the order Togo, Benin the groupby (pandas
default `sort=True`) iterates Benin, Togo — the ascending sorted order, not
the first-appearance order. -/
theorem c3_counterexample :
    (summarize c3Rows).map Prod.fst = ["Benin", "Togo"] ∧
    dedupKeys (c3Rows.map Prod.fst) = ["Togo", "Benin"] ∧
    (summarize c3Rows).map Prod.fst ≠ dedupKeys (c3Rows.map Prod.fst) := by decide

/-- Claim C3 as amended: `summarize` groups rows by the dataset-name key,
and the iteration order of the groups in its result is the ascending sorted
order of the distinct dataset names (pandas `groupby` default `sort=True`),
each name appearing exactly once, with exactly the names present in the
input. -/
theorem c3_groupby_sorted (rows : List (String × Option ℚ)) :
    ((summarize rows).map Prod.fst).Sorted (fun a b => strLeb a b = true) ∧
    ((summarize rows).map Prod.fst).Nodup ∧
    (∀ k, k ∈ (summarize rows).map Prod.fst ↔ k ∈ rows.map Prod.fst) := by
  haveI htot : IsTotal String (fun a b => strLeb a b = true) :=
    ⟨fun a b => charsLe_total a.data b.data⟩
  haveI htrans : IsTrans String (fun a b => strLeb a b = true) :=
    ⟨fun a b c h1 h2 => charsLe_trans a.data b.data c.data h1 h2⟩
  rw [summarize_keys]
  refine ⟨List.sorted_insertionSort _ _, ?_, ?_⟩
  · exact ((List.perm_insertionSort _ _).nodup_iff).mpr (nodup_dedupKeys _)
  · intro k
    rw [groupKeys, (List.perm_insertionSort _ _).mem_iff, mem_dedupKeys]

/-- The scan keeps a value at least as large as every element it has seen,
and returns its start or an element of the list. -/
theorem pickMaxGo_spec (l : List (String × ℚ)) : ∀ best : String × ℚ,
    (pickMaxGo best l = best ∨ pickMaxGo best l ∈ l) ∧
    best.2 ≤ (pickMaxGo best l).2 ∧
    ∀ p ∈ l, p.2 ≤ (pickMaxGo best l).2 := by
  induction l with
  | nil => intro best; exact ⟨Or.inl rfl, le_refl _, by simp⟩
  | cons y ys ih =>
    intro best
    simp only [pickMaxGo]
    obtain ⟨hmem, hle, hall⟩ := ih (if best.2 < y.2 then y else best)
    refine ⟨?_, ?_, ?_⟩
    · rcases hmem with h | h
      · rw [h]
        by_cases hc : best.2 < y.2
        · rw [if_pos hc]; exact Or.inr (List.mem_cons_self _ _)
        · rw [if_neg hc]; exact Or.inl rfl
      · exact Or.inr (List.mem_cons_of_mem _ h)
    · refine le_trans ?_ hle
      by_cases hc : best.2 < y.2
      · rw [if_pos hc]; exact le_of_lt hc
      · rw [if_neg hc]
    · intro p hp
      rcases List.mem_cons.mp hp with rfl | hp2
      · refine le_trans ?_ hle
        by_cases hc : best.2 < p.2
        · rw [if_pos hc]
        · rw [if_neg hc]; exact le_of_not_lt hc
      · exact hall p hp2

/-- `idxmax` semantics: a returned key carries the maximum value of the list. -/
theorem pickMax_spec (l : List (String × ℚ)) (k : String) (h : pickMax l = some k) :
    ∃ v, (k, v) ∈ l ∧ ∀ p ∈ l, p.2 ≤ v := by
  cases l with
  | nil => cases h
  | cons x xs =>
    simp only [pickMax] at h
    have hk := Option.some.inj h
    obtain ⟨hmem, hle, hall⟩ := pickMaxGo_spec xs x
    refine ⟨(pickMaxGo x xs).2, ?_, ?_⟩
    · rw [← hk, Prod.mk.eta]
      rcases hmem with h1 | h1
      · rw [h1]; exact List.mem_cons_self _ _
      · exact List.mem_cons_of_mem _ h1
    · intro p hp
      rcases List.mem_cons.mp hp with rfl | hp2
      · exact hle
      · exact hall p hp2

/-- The scan keeps a value at least as small as every element it has seen,
and returns its start or an element of the list. -/
theorem pickMinGo_spec (l : List (String × ℚ)) : ∀ best : String × ℚ,
    (pickMinGo best l = best ∨ pickMinGo best l ∈ l) ∧
    (pickMinGo best l).2 ≤ best.2 ∧
    ∀ p ∈ l, (pickMinGo best l).2 ≤ p.2 := by
  induction l with
  | nil => intro best; exact ⟨Or.inl rfl, le_refl _, by simp⟩
  | cons y ys ih =>
    intro best
    simp only [pickMinGo]
    obtain ⟨hmem, hle, hall⟩ := ih (if y.2 < best.2 then y else best)
    refine ⟨?_, ?_, ?_⟩
    · rcases hmem with h | h
      · rw [h]
        by_cases hc : y.2 < best.2
        · rw [if_pos hc]; exact Or.inr (List.mem_cons_self _ _)
        · rw [if_neg hc]; exact Or.inl rfl
      · exact Or.inr (List.mem_cons_of_mem _ h)
    · refine le_trans hle ?_
      by_cases hc : y.2 < best.2
      · rw [if_pos hc]; exact le_of_lt hc
      · rw [if_neg hc]
    · intro p hp
      rcases List.mem_cons.mp hp with rfl | hp2
      · refine le_trans hle ?_
        by_cases hc : p.2 < best.2
        · rw [if_pos hc]
        · rw [if_neg hc]; exact le_of_not_lt hc
      · exact hall p hp2

/-- `idxmin` semantics: a returned key carries the minimum value of the list. -/
theorem pickMin_spec (l : List (String × ℚ)) (k : String) (h : pickMin l = some k) :
    ∃ v, (k, v) ∈ l ∧ ∀ p ∈ l, v ≤ p.2 := by
  cases l with
  | nil => cases h
  | cons x xs =>
    simp only [pickMin] at h
    have hk := Option.some.inj h
    obtain ⟨hmem, hle, hall⟩ := pickMinGo_spec xs x
    refine ⟨(pickMinGo x xs).2, ?_, ?_⟩
    · rw [← hk, Prod.mk.eta]
      rcases hmem with h1 | h1
      · rw [h1]; exact List.mem_cons_self _ _
      · exact List.mem_cons_of_mem _ h1
    · intro p hp
      rcases List.mem_cons.mp hp with rfl | hp2
      · exact hle
      · exact hall p hp2

/-- An entry survives the NaN filter exactly when it is finite. -/
theorem mem_pfEntries {k : String} {q : ℚ} (l : List (String × PFloat)) :
    (k, q) ∈ pfEntries l ↔ (k, PFloat.val q) ∈ l := by
  rw [pfEntries, List.mem_filterMap]
  constructor
  · rintro ⟨p, hp, hf⟩
    obtain ⟨k0, v0⟩ := p
    cases v0 with
    | nan => cases hf
    | inf => cases hf
    | val q0 => cases hf; exact hp
  · intro hp
    exact ⟨(k, PFloat.val q), hp, rfl⟩

/-- Evaluation: the groups of the C2 example rows. -/
theorem groupby_c2Rows :
    groupby c2Rows = [("A", [some (1001/1000)]), ("B", [some (1004/1000)])] := rfl

/-- Evaluation: both group means of the C2 example rows round to the same
2-decimal value, although the unrounded means differ. -/
theorem countryStatsMeans_c2Rows :
    countryStatsMeans c2Rows = [("A", PFloat.val 1), ("B", PFloat.val 1)] := by
  rw [countryStatsMeans, groupby_c2Rows]
  simp only [List.map_cons, List.map_nil]
  rw [pmean, if_neg (by decide), pmean, if_neg (by decide)]
  rw [round2PF, round2PF]
  simp only [nonMiss_cons_some, nonMiss_nil, List.sum_cons, List.sum_nil, List.length_cons,
    List.length_nil]
  norm_num [round2, roundHalfEven]

/-- Evaluation: the code's best-country selection on the C2 example rows. -/
theorem bestCountry_c2Rows : bestCountry c2Rows = some "A" := by
  rw [bestCountry, idxmaxPF, countryStatsMeans_c2Rows, pfEntries]
  simp only [List.filterMap_cons, List.filterMap_nil]
  rw [pickMax, pickMaxGo, pickMaxGo, if_neg (by norm_num)]

/-- Evaluation: the spec's unrounded best-country selection on the C2
example rows. -/
theorem unroundedBest_c2Rows : unroundedBest c2Rows = some "B" := by
  rw [unroundedBest, groupby_c2Rows]
  simp only [List.map_cons, List.map_nil]
  rw [pmean, if_neg (by decide), pmean, if_neg (by decide)]
  rw [idxmaxPF, pfEntries]
  simp only [List.filterMap_cons, List.filterMap_nil]
  simp only [nonMiss_cons_some, nonMiss_nil, List.sum_cons, List.sum_nil, List.length_cons,
    List.length_nil]
  rw [pickMax, pickMaxGo, pickMaxGo, if_pos (by norm_num)]

/-- Counterexample to claim C2: the claim says the best/worst selections
are computed from the UNROUNDED per-group means and that the rounded values
never feed back into any computation; but the code rounds the stats table
first (`.round(2)`) and then takes `idxmax`, so on groups with means 1.001
and 1.004 — which both round to 1.00 — the code selects the first group A
while the unrounded means select B. -/
theorem c2_counterexample :
    bestCountry c2Rows = some "A" ∧ unroundedBest c2Rows = some "B" ∧
    bestCountry c2Rows ≠ unroundedBest c2Rows := by
  refine ⟨bestCountry_c2Rows, unroundedBest_c2Rows, ?_⟩
  rw [bestCountry_c2Rows, unroundedBest_c2Rows]
  decide

/-- Claim C2 as amended: the Insight block's best/worst selections are
computed from the 2-decimal-ROUNDED per-group means — the selected key
maximises (resp. minimises) the rounded mean column, so the rounding does
feed into the selection step rather than being presentation-only. -/
theorem c2_rounded_selection (rows : List (String × Option ℚ)) (k : String) :
    (bestCountry rows = some k →
      ∃ q, (k, PFloat.val q) ∈ countryStatsMeans rows ∧
        ∀ p ∈ countryStatsMeans rows, ∀ q2, p.2 = PFloat.val q2 → q2 ≤ q) ∧
    (worstCountry rows = some k →
      ∃ q, (k, PFloat.val q) ∈ countryStatsMeans rows ∧
        ∀ p ∈ countryStatsMeans rows, ∀ q2, p.2 = PFloat.val q2 → q ≤ q2) := by
  constructor
  · intro h
    rw [bestCountry, idxmaxPF] at h
    obtain ⟨v, hmem, hall⟩ := pickMax_spec _ _ h
    refine ⟨v, (mem_pfEntries _).mp hmem, ?_⟩
    intro p hp q2 hq2
    have hp2 : (p.1, q2) ∈ pfEntries (countryStatsMeans rows) := by
      apply (mem_pfEntries _).mpr
      rw [← hq2, Prod.mk.eta]
      exact hp
    simpa using hall _ hp2
  · intro h
    rw [worstCountry, idxminPF] at h
    obtain ⟨v, hmem, hall⟩ := pickMin_spec _ _ h
    refine ⟨v, (mem_pfEntries _).mp hmem, ?_⟩
    intro p hp q2 hq2
    have hp2 : (p.1, q2) ∈ pfEntries (countryStatsMeans rows) := by
      apply (mem_pfEntries _).mpr
      rw [← hq2, Prod.mk.eta]
      exact hp
    simpa using hall _ hp2

/-- Witness for the amended C2: on the example rows the code selects `A`,
and `A` indeed maximises the ROUNDED mean column. -/
theorem c2_witness :
    ∃ q, ("A", PFloat.val q) ∈ countryStatsMeans c2Rows ∧
      ∀ p ∈ countryStatsMeans c2Rows, ∀ q2, p.2 = PFloat.val q2 → q2 ≤ q :=
  (c2_rounded_selection c2Rows "A").1 bestCountry_c2Rows

/-- Expansion of a sum of squared deviations. -/
theorem list_sum_sq_dev (xs : List ℚ) (c : ℚ) :
    (xs.map (fun x => (x - c)^2)).sum
      = (xs.map (fun x => x^2)).sum - 2*c*xs.sum + (xs.length : ℚ) * c^2 := by
  induction xs with
  | nil => simp
  | cons x xs ih =>
    simp only [List.map_cons, List.sum_cons, List.length_cons, ih]
    push_cast
    ring

/-- An entry of the statistics table is the aggregate of its group's values. -/
theorem mem_summarize {rows : List (String × Option ℚ)} {k : String} {st : GStats}
    (h : (k, st) ∈ summarize rows) : st = mkGStats (groupVals rows k) := by
  rw [summarize, groupby, List.map_map] at h
  rcases List.mem_map.mp h with ⟨k0, hk0, heq⟩
  simp only [Function.comp] at heq
  cases heq
  rfl

/-- Claim C5: in every entry of the statistics table, `count` is the number
of non-missing metric values of the group; the standard deviation is NaN —
and in particular not 0 — whenever that count is below 2; and for counts of
at least 2 its square equals `(n·Σx² − (Σx)²) / (n·(n−1))`, the expanded
form of the sample (n−1) estimator (a population estimator would divide by
`n²`). Totality of the embedding reflects that no exception is raised. -/
theorem c5_sample_std (rows : List (String × Option ℚ)) (k : String) (st : GStats)
    (h : (k, st) ∈ summarize rows) :
    st.count = (nonMiss (groupVals rows k)).length ∧
    (st.count < 2 → st.stdSq = PFloat.nan ∧ st.stdSq ≠ PFloat.val 0) ∧
    (2 ≤ st.count → st.stdSq = PFloat.val
      (((st.count : ℚ) * ((nonMiss (groupVals rows k)).map (fun x => x^2)).sum
        - ((nonMiss (groupVals rows k)).sum)^2)
       / ((st.count : ℚ) * ((st.count : ℚ) - 1)))) := by
  have hst := mem_summarize h
  subst hst
  simp only [mkGStats]
  refine ⟨trivial, ?_, ?_⟩
  · intro hlt
    have hnan : pstdSq (groupVals rows k) = PFloat.nan := by
      rw [pstdSq, if_pos hlt]
    exact ⟨hnan, by rw [hnan]; exact fun hcon => PFloat.noConfusion hcon⟩
  · intro hge
    rw [pstdSq, if_neg (by omega)]
    congr 1
    have hn0 : ((nonMiss (groupVals rows k)).length : ℚ) ≠ 0 := by
      exact_mod_cast Nat.pos_iff_ne_zero.mp (by omega)
    have h1 : ((nonMiss (groupVals rows k)).length : ℚ) - 1 ≠ 0 := by
      have h2 : (2:ℚ) ≤ ((nonMiss (groupVals rows k)).length : ℚ) := by exact_mod_cast hge
      intro hcon
      rw [sub_eq_zero] at hcon
      rw [hcon] at h2
      norm_num at h2
    rw [list_sum_sq_dev]
    field_simp
    ring

/-- Witness for C5: a group with a single value has NaN (and not 0) as its
standard deviation. -/
theorem c5_witness :
    (mkGStats [some 5]).stdSq = PFloat.nan ∧ (mkGStats [some 5]).stdSq ≠ PFloat.val 0 :=
  ((c5_sample_std [("X", some 5)] "X" (mkGStats [some 5])
    (List.mem_singleton.mpr rfl)).2).1 (by decide)

/-- Counterexample to claim C6: the claim says every empty table yields a
non-fatal "no data" result; but on a table that is empty (zero rows) while
still carrying the metric column, `calculate_statistics` returns a
dictionary (not the `None` no-data signal) and `generate_insights` returns
a formatted report of NaN values, not its "No data available" result. -/
theorem c6_counterexample :
    nRows [("GHI", ([] : Col))] = 0 ∧
    calculate_statistics [("GHI", ([] : Col))] "GHI" ≠ none ∧
    generate_insights [("GHI", ([] : Col))] "GHI" ≠ InsightMsg.noData := by decide

/-- Claim C6 as amended: a table lacking the requested metric column yields
the non-fatal "no data" result; a zero-row table that still contains the
metric column yields a normal statistics report whose values are all NaN.
In both cases the operations are total — no exception escapes. -/
theorem c6_no_data (df : Table) (metric : String) :
    (metric ∉ colNames df → generate_insights df metric = InsightMsg.noData) ∧
    (metric ∈ colNames df → colOfD df metric = [] →
      generate_insights df metric =
        InsightMsg.report PFloat.nan PFloat.nan PFloat.nan PFloat.nan) := by
  constructor
  · intro h
    rw [generate_insights, calculate_statistics, if_neg h]
  · intro h hcol
    simp only [generate_insights, calculate_statistics, if_pos h, hcol]
    simp [pmean, pstdSq, pminPF, pmaxPF, nonMiss]

/-- Witness for the amended C6: a missing column gives the no-data result;
a present-but-empty column gives the all-NaN report. -/
theorem c6_witness :
    generate_insights [("DNI", [some 1])] "GHI" = InsightMsg.noData ∧
    generate_insights [("GHI", ([] : Col))] "GHI"
      = InsightMsg.report PFloat.nan PFloat.nan PFloat.nan PFloat.nan :=
  ⟨(c6_no_data [("DNI", [some 1])] "GHI").1 (by decide),
   (c6_no_data [("GHI", [])] "GHI").2 (by decide) (by decide)⟩

/-- Looking up the key just inserted returns the inserted value. -/
theorem dictLookup_insert_self (d : List (String × Nat)) (k : String) (v : Nat) :
    dictLookup (dictInsert d k v) k = some v := by
  induction d with
  | nil => simp [dictInsert, dictLookup]
  | cons p ps ih =>
    by_cases hp : p.1 = k
    · simp [dictInsert, hp, dictLookup]
    · simp [dictInsert, hp, dictLookup, ih]

/-- Insertion does not disturb other keys. -/
theorem dictLookup_insert_ne (d : List (String × Nat)) (k c : String) (v : Nat)
    (h : c ≠ k) : dictLookup (dictInsert d k v) c = dictLookup d c := by
  induction d with
  | nil => simp [dictInsert, dictLookup, Ne.symm h]
  | cons p ps ih =>
    by_cases hp : p.1 = k
    · have hpc : p.1 ≠ c := by rw [hp]; exact Ne.symm h
      simp [dictInsert, hp, dictLookup, hpc, Ne.symm h]
    · by_cases hpc : p.1 = c
      · simp [dictInsert, hp, dictLookup, hpc, h]
      · simp [dictInsert, hp, dictLookup, hpc, ih]

/-- The outlier dictionary built by the fold maps exactly the requested
columns present in the table to their outlier counts. -/
theorem detOut_foldl (df : Table) (t : ℚ) (cols : List String) :
    ∀ (acc : List (String × Nat)) (c : String),
    dictLookup (cols.foldl (fun d col =>
        if col ∈ colNames df then dictInsert d col (zscoreOutlierCount (colOfD df col) t) else d)
      acc) c
      = if c ∈ cols ∧ c ∈ colNames df then some (zscoreOutlierCount (colOfD df c) t)
        else dictLookup acc c := by
  induction cols with
  | nil => intro acc c; simp
  | cons col rest ih =>
    intro acc c
    rw [List.foldl_cons, ih]
    by_cases hdf : c ∈ colNames df
    · by_cases hcr : c ∈ rest
      · rw [if_pos (And.intro hcr hdf), if_pos (And.intro (List.mem_cons_of_mem _ hcr) hdf)]
      · rw [if_neg (fun hcon => hcr hcon.1)]
        by_cases hc : c = col
        · subst hc
          rw [if_pos hdf, dictLookup_insert_self,
            if_pos (And.intro (List.mem_cons_self _ _) hdf)]
        · have hacc : dictLookup
              (if col ∈ colNames df
                then dictInsert acc col (zscoreOutlierCount (colOfD df col) t) else acc) c
              = dictLookup acc c := by
            by_cases hcoldf : col ∈ colNames df
            · rw [if_pos hcoldf, dictLookup_insert_ne _ _ _ _ hc]
            · rw [if_neg hcoldf]
          rw [hacc, if_neg (fun hcon => (List.mem_cons.mp hcon.1).elim hc hcr)]
    · rw [if_neg (fun hcon => hdf hcon.2)]
      have hacc2 : dictLookup
          (if col ∈ colNames df
            then dictInsert acc col (zscoreOutlierCount (colOfD df col) t) else acc) c
          = dictLookup acc c := by
        by_cases hcoldf : col ∈ colNames df
        · have hc : c ≠ col := fun hcon => hdf (hcon ▸ hcoldf)
          rw [if_pos hcoldf, dictLookup_insert_ne _ _ _ _ hc]
        · rw [if_neg hcoldf]
      rw [hacc2, if_neg (fun hcon => hdf hcon.2)]

/-- Lookup characterisation of `detect_outliers_zscore`. -/
theorem detOut_lookup (df : Table) (cols : List String) (t : ℚ) (c : String) :
    dictLookup (detect_outliers_zscore df cols t) c
      = if c ∈ cols ∧ c ∈ colNames df then some (zscoreOutlierCount (colOfD df c) t)
        else none := by
  rw [detect_outliers_zscore, detOut_foldl]
  rfl

/-- Sum of a constant list. -/
theorem allEq_sum (xs : List ℚ) (a : ℚ) (h : ∀ x ∈ xs, x = a) :
    xs.sum = (xs.length : ℚ) * a := by
  induction xs with
  | nil => simp
  | cons x rest ih =>
    simp only [List.sum_cons, List.length_cons]
    rw [h x (List.mem_cons_self _ _), ih (fun y hy => h y (List.mem_cons_of_mem _ hy))]
    push_cast
    ring

/-- A column whose non-missing values are all equal has population variance
zero, all its z-scores are `0/0 = NaN`, no comparison with the threshold
succeeds, and the outlier count is 0 — with no division-by-zero failure. -/
theorem zscoreOutlierCount_const (vs : Col) (a : ℚ) (h : ∀ x ∈ nonMiss vs, x = a) (t : ℚ) :
    zscoreOutlierCount vs t = 0 := by
  by_cases hnil : nonMiss vs = []
  · rw [zscoreOutlierCount, hnil]
    rfl
  · have hpos : 0 < (nonMiss vs).length := List.length_pos.mpr hnil
    have hn0 : ((nonMiss vs).length : ℚ) ≠ 0 :=
      Nat.cast_ne_zero.mpr (Nat.pos_iff_ne_zero.mp hpos)
    have hmean : (nonMiss vs).sum / ((nonMiss vs).length : ℚ) = a := by
      rw [allEq_sum (nonMiss vs) a h, mul_comm, mul_div_assoc, div_self hn0, mul_one]
    have hv : popVar (nonMiss vs) = 0 := by
      rw [popVar, hmean]
      have hz : ((nonMiss vs).map (fun x => (x - a)^2)).sum = 0 := by
        apply List.sum_eq_zero
        intro y hy
        rcases List.mem_map.mp hy with ⟨x, hx, rfl⟩
        rw [h x hx]
        ring
      rw [hz, zero_div]
    rw [zscoreOutlierCount, hmean, hv]
    have hfalse : ∀ x : ℚ, zExceeds x a 0 t = false := fun x => by rw [zExceeds, if_pos rfl]
    simp [hfalse]

/-- A successful column lookup implies column membership. -/
theorem lookupCol_mem (df : Table) (c : String) (vs : Col)
    (h : lookupCol df c = some vs) : c ∈ colNames df := by
  induction df with
  | nil => cases h
  | cons p ps ih =>
    rw [lookupCol] at h
    by_cases hp : p.1 = c
    · exact List.mem_cons.mpr (Or.inl hp.symm)
    · rw [if_neg hp] at h
      exact List.mem_cons_of_mem _ (ih h)

/-- Claim C7: on any requested column whose non-missing values are all
equal (zero variance), `detect_outliers_zscore` reports an outlier count of
0 for that column, and — the embedding being total — no division-by-zero
error is raised. -/
theorem c7_zero_variance (df : Table) (cols : List String) (t : ℚ) (c : String) (vs : Col)
    (a : ℚ) (hcol : lookupCol df c = some vs) (hconst : ∀ x ∈ nonMiss vs, x = a)
    (hreq : c ∈ cols) :
    dictLookup (detect_outliers_zscore df cols t) c = some 0 := by
  have hmem := lookupCol_mem df c vs hcol
  rw [detOut_lookup, if_pos (And.intro hreq hmem)]
  have hcd : colOfD df c = vs := by rw [colOfD, hcol]; rfl
  rw [hcd, zscoreOutlierCount_const vs a hconst]

/-- Witness for C7: the constant column 42.0 repeated 100 times yields 0
outliers at the default threshold 3. -/
theorem c7_witness :
    dictLookup
      (detect_outliers_zscore [("GHI", List.replicate 100 (some (42:ℚ)))] ["GHI"] 3) "GHI"
      = some 0 :=
  c7_zero_variance _ ["GHI"] 3 "GHI" (List.replicate 100 (some 42)) 42 (by decide)
    (by decide) (by decide)

/-- Claim C9: the outlier mapping has an entry for a column exactly when the
column was requested AND is present in the table — a requested column absent
from the table is silently omitted rather than raising or appearing with a
count. -/
theorem c9_requested_present (df : Table) (cols : List String) (t : ℚ) (c : String) :
    dictLookup (detect_outliers_zscore df cols t) c ≠ none ↔
      (c ∈ cols ∧ c ∈ colNames df) := by
  rw [detOut_lookup]
  by_cases h : c ∈ cols ∧ c ∈ colNames df
  · simp [h]
  · simp [h]

/-- Claim C10: on a table with zero rows, `generate_missing_report` gives
`missing_count = 0` and `missing_percent = NaN` (the float `0/0`) for every
column, raising nothing; and whenever the table has at least one row the
percentage is a genuine finite value. -/
theorem c10_missing_report (df : Table) :
    ((∀ p ∈ df, p.2 = ([] : Col)) →
      ∀ e ∈ generate_missing_report df, e.2.1 = 0 ∧ e.2.2 = PFloat.nan) ∧
    (0 < nRows df →
      ∀ e ∈ generate_missing_report df, ∃ q, e.2.2 = PFloat.val q) := by
  constructor
  · intro hz e he
    rw [generate_missing_report] at he
    rcases List.mem_map.mp he with ⟨p, hp, rfl⟩
    have hpe : p.2 = [] := hz p hp
    have hrows : nRows df = 0 := by
      cases df with
      | nil => rfl
      | cons c0 cs =>
        have h0 : c0.2 = [] := hz c0 (List.mem_cons_self _ _)
        show c0.2.length = 0
        rw [h0]
        rfl
    constructor
    · show missingCount p.2 = 0
      rw [hpe]
      rfl
    · show fdivPct (missingCount p.2) (nRows df) = PFloat.nan
      rw [hpe, hrows]
      rfl
  · intro hpos e he
    rw [generate_missing_report] at he
    rcases List.mem_map.mp he with ⟨p, hp, rfl⟩
    show ∃ q, fdivPct (missingCount p.2) (nRows df) = PFloat.val q
    rw [fdivPct, if_neg (Nat.pos_iff_ne_zero.mp hpos)]
    exact ⟨_, rfl⟩

/-- Witness for C10: the report of a two-column zero-row table. -/
theorem c10_witness :
    (("GHI", 0, PFloat.nan) : String × Nat × PFloat).2.1 = 0 ∧
    (("GHI", 0, PFloat.nan) : String × Nat × PFloat).2.2 = PFloat.nan :=
  (c10_missing_report [("GHI", []), ("WS", [])]).1 (by decide) ("GHI", 0, PFloat.nan)
    (by decide)

/-- One normalisation step only ever adds a column name. -/
theorem colNames_stdStep_mono {a : String} (t : Table) (p : String × String)
    (h : a ∈ colNames t) : a ∈ colNames (stdStep t p) := by
  rw [stdStep]
  by_cases hc : p.1 ∈ colNames t ∧ p.2 ∉ colNames t
  · rw [if_pos hc, colNames, List.map_append]
    exact List.mem_append_left _ h
  · rw [if_neg hc]
    exact h

/-- A name present after one step was present before, or is the canonical
name of that step. -/
theorem colNames_stdStep_sub {a : String} (t : Table) (p : String × String)
    (h : a ∈ colNames (stdStep t p)) : a ∈ colNames t ∨ a = p.2 := by
  rw [stdStep] at h
  by_cases hc : p.1 ∈ colNames t ∧ p.2 ∉ colNames t
  · rw [if_pos hc, colNames, List.map_append] at h
    rcases List.mem_append.mp h with h1 | h1
    · exact Or.inl h1
    · simp at h1
      exact Or.inr h1
  · rw [if_neg hc] at h
    exact Or.inl h

/-- Column names are preserved through the whole normalisation fold. -/
theorem colNames_foldl_mono {a : String} (ps : List (String × String)) :
    ∀ t : Table, a ∈ colNames t → a ∈ colNames (ps.foldl stdStep t) := by
  induction ps with
  | nil => intro t h; exact h
  | cons p rest ih =>
    intro t h
    rw [List.foldl_cons]
    exact ih _ (colNames_stdStep_mono t p h)

/-- Names appearing after the fold come from the table or from the
canonical-name column of the mapping. -/
theorem colNames_foldl_sub {a : String} (ps : List (String × String)) :
    ∀ t : Table, a ∈ colNames (ps.foldl stdStep t) →
      a ∈ colNames t ∨ a ∈ ps.map Prod.snd := by
  induction ps with
  | nil => intro t h; exact Or.inl h
  | cons p rest ih =>
    intro t h
    rw [List.foldl_cons] at h
    rcases ih _ h with h1 | h1
    · rcases colNames_stdStep_sub t p h1 with h2 | h2
      · exact Or.inl h2
      · exact Or.inr (by rw [List.map_cons]; exact List.mem_cons.mpr (Or.inl h2))
    · exact Or.inr (by rw [List.map_cons]; exact List.mem_cons_of_mem _ h1)

/-- After one full pass of a mapping in which no source name is another
pair's distinct canonical name, every applicable alias is present: whenever
a pair's source name is a column of the result, its canonical name is too. -/
theorem foldl_closure (ps : List (String × String)) :
    ∀ t : Table, (∀ p ∈ ps, p.1 = p.2 ∨ p.1 ∉ ps.map Prod.snd) →
    ∀ p ∈ ps, p.1 ∈ colNames (ps.foldl stdStep t) → p.2 ∈ colNames (ps.foldl stdStep t) := by
  induction ps with
  | nil => intro t hps p hp; cases hp
  | cons p0 rest ih =>
    intro t hps p hp hin
    rw [List.foldl_cons] at hin ⊢
    rcases List.mem_cons.mp hp with heq | hrest
    · cases heq
      by_cases hfire : p0.1 ∈ colNames t ∧ p0.2 ∉ colNames t
      · have h2 : p0.2 ∈ colNames (stdStep t p0) := by
          rw [stdStep, if_pos hfire, colNames, List.map_append]
          exact List.mem_append_right _ (by simp)
        exact colNames_foldl_mono rest _ h2
      · have hstep : stdStep t p0 = t := by rw [stdStep, if_neg hfire]
        rw [hstep] at hin ⊢
        by_cases h2t : p0.2 ∈ colNames t
        · exact colNames_foldl_mono rest t h2t
        · have h1t : p0.1 ∉ colNames t := fun h1 => hfire (And.intro h1 h2t)
          rcases hps p0 (List.mem_cons_self _ _) with heq2 | hnotin
          · rw [← heq2]
            exact hin
          · rcases colNames_foldl_sub rest t hin with h | h
            · exact absurd h h1t
            · exact absurd (by rw [List.map_cons]; exact List.mem_cons_of_mem _ h) hnotin
    · refine ih (stdStep t p0) ?_ p hrest hin
      intro q hq
      rcases hps q (List.mem_cons_of_mem _ hq) with h | h
      · exact Or.inl h
      · exact Or.inr (fun hmem => h (by rw [List.map_cons]; exact List.mem_cons_of_mem _ hmem))

/-- A pass in which no pair applies leaves the table unchanged. -/
theorem foldl_no_fire (ps : List (String × String)) :
    ∀ t : Table, (∀ p ∈ ps, ¬(p.1 ∈ colNames t ∧ p.2 ∉ colNames t)) →
    ps.foldl stdStep t = t := by
  induction ps with
  | nil => intro t h; rfl
  | cons p rest ih =>
    intro t h
    rw [List.foldl_cons]
    have hstep : stdStep t p = t := by rw [stdStep, if_neg (h p (List.mem_cons_self _ _))]
    rw [hstep]
    exact ih t (fun q hq => h q (List.mem_cons_of_mem _ hq))

/-- Claim C8: `standardize_columns` is idempotent on every table — after one
pass every applicable canonical name is present, so a second pass changes
nothing. The key property of the concrete mapping, checked by `decide`, is
that no pair's source name is a DIFFERENT pair's canonical name. -/
theorem c8_normalize_idempotent (t : Table) :
    standardize_columns (standardize_columns t) = standardize_columns t := by
  have hmap : ∀ p ∈ columnMapping, p.1 = p.2 ∨ p.1 ∉ columnMapping.map Prod.snd := by decide
  have hclosed := foldl_closure columnMapping t hmap
  exact foldl_no_fire columnMapping (standardize_columns t)
    (fun p hp hcon => hcon.2 (hclosed p hp hcon.1))

end Solar
